import Mathlib

/-!
# Shallow embedding of the `ecsdee` ECS core (`src/ecs.ts`)

Entities are `bigint` ids (modelled as `Nat`, allocated by a monotone
counter).  Component values carry a string tag (the `COMPONENT_TOKEN`
brand) plus arbitrary user data (a type parameter `α`).  JavaScript
`Map`s are modelled as insertion-ordered association lists; `Map.get`
returns the value of the (unique) entry, `Map.set` updates in place or
appends, `Map.delete` removes the entry.  `bigint` bitmasks are `Nat`
(arbitrary precision, always non-negative in the source), `1n << i` is
`2 ^ i` via `<<<`, `m & ~(1n << i)` is `Nat.ldiff m (1 <<< i)`.

Operations that can `throw` (`UnknownComponentType`) return an
`Option EcsError` paired with the state at the moment of the throw (or
the final state on success), transcribing the statement order of the
source so that "no mutation happened before the throw" is a statement
about the definitions, not an artifact of the encoding.
-/

namespace Ecsdee

/-- Association-list lookup, modelling JS `Map.prototype.get`. -/
def mget {κ β : Type} [DecidableEq κ] : List (κ × β) → κ → Option β
  | [], _ => none
  | (k', v) :: rest, k => if k' = k then some v else mget rest k

/-- JS `Map.prototype.has`. -/
def mhas {κ β : Type} [DecidableEq κ] (m : List (κ × β)) (k : κ) : Bool :=
  (mget m k).isSome

/-- JS `Map.prototype.set`: update the existing entry in place, else append. -/
def mset {κ β : Type} [DecidableEq κ] : List (κ × β) → κ → β → List (κ × β)
  | [], k, v => [(k, v)]
  | (k', v') :: rest, k, v =>
    if k' = k then (k', v) :: rest else (k', v') :: mset rest k v

/-- JS `Map.prototype.delete` (keys are unique in a `Map`, so removing
every matching entry coincides with removing the one entry). -/
def mdel {κ β : Type} [DecidableEq κ] : List (κ × β) → κ → List (κ × β)
  | [], _ => []
  | (k', v) :: rest, k =>
    if k' = k then mdel rest k else (k', v) :: mdel rest k

/-- The single error kind of the engine:
`throw new Error(`Component type ${type} is not registered.`)`. -/
inductive EcsError : Type where
  | unknownComponentType : String → EcsError
deriving DecidableEq, Repr

/-- A component instance: the `COMPONENT_TOKEN` brand (the definition's
`type` name) plus the user data (`defineComponent` spreads `data` and
adds the token). -/
structure Component (α : Type) where
  token : String
  data : α
deriving DecidableEq, Repr

/-- The private fields of `class ECS`.  A `ComponentDefinition` is
identified by its `type` string (its `create` function is determined by
that name), so `allowedComponents` maps the tag to itself. -/
structure EcsState (α : Type) where
  componentStores : List (String × List (Nat × Component α)) := []
  componentIndices : List (String × Nat) := []
  entityBitmasks : List (Nat × Nat) := []
  nextComponentIndex : Nat := 0
  nextEntityId : Nat := 0
  allowedComponents : List (String × String) := []
deriving DecidableEq, Repr

variable {α : Type}

/-- `private registerComponentType(componentDef)`. -/
def registerComponentType (s : EcsState α) (tag : String) : EcsState α :=
  if mhas s.componentIndices tag then s
  else
    { s with
      componentIndices := mset s.componentIndices tag s.nextComponentIndex
      allowedComponents := mset s.allowedComponents tag tag
      nextComponentIndex := s.nextComponentIndex + 1 }

/-- `static create(...allowedComponents)`: fold registration over the
definition list, starting from a fresh instance. -/
def createECS (tags : List String) : EcsState α :=
  tags.foldl registerComponentType {}

/-- `private getComponentIndex(type)`: `none` models the throw of
`UnknownComponentType`. -/
def getComponentIndex (s : EcsState α) (tag : String) : Option Nat :=
  mget s.componentIndices tag

/-- `addComponent(entity, component)`: resolve the token's index (throw
before any write if unregistered), lazily create the store, overwrite the
slot, then OR the bit into the bitmask (`get(entity) || 0n` defaults a
missing mask to `0n`). -/
def addComponent (s : EcsState α) (entity : Nat) (c : Component α) :
    Option EcsError × EcsState α :=
  let tag := c.token
  match getComponentIndex s tag with
  | none => (some (.unknownComponentType tag), s)
  | some index =>
    let s1 :=
      if mhas s.componentStores tag then s
      else { s with componentStores := mset s.componentStores tag [] }
    let store := (mget s1.componentStores tag).getD []
    let s2 := { s1 with componentStores := mset s1.componentStores tag (mset store entity c) }
    let currentBitmask := (mget s2.entityBitmasks entity).getD 0
    (none,
      { s2 with
        entityBitmasks :=
          mset s2.entityBitmasks entity (currentBitmask ||| (1 <<< index)) })

/-- `removeComponent(entity, component)`: resolve the index (throw before
any write), delete the store slot if the store exists (`?.delete`), then
clear the bit: `currentBitmask & ~(1n << index)` on non-negative bigints
is `Nat.ldiff currentBitmask (1 <<< index)`. -/
def removeComponent (s : EcsState α) (entity : Nat) (tag : String) :
    Option EcsError × EcsState α :=
  match getComponentIndex s tag with
  | none => (some (.unknownComponentType tag), s)
  | some index =>
    let s1 :=
      match mget s.componentStores tag with
      | none => s
      | some store =>
        { s with componentStores := mset s.componentStores tag (mdel store entity) }
    let currentBitmask := (mget s1.entityBitmasks entity).getD 0
    (none,
      { s1 with
        entityBitmasks :=
          mset s1.entityBitmasks entity (Nat.ldiff currentBitmask (1 <<< index)) })

/-- `getComponent(entity, component)`: `componentStores.get(type)?.get(entity)`;
total, never throws. -/
def getComponent (s : EcsState α) (entity : Nat) (tag : String) :
    Option (Component α) :=
  match mget s.componentStores tag with
  | none => none
  | some store => mget store entity

/-- `hasComponent(entity, component)`: `componentStores.get(type)?.has(entity) || false`;
total, never throws. -/
def hasComponent (s : EcsState α) (entity : Nat) (tag : String) : Bool :=
  match mget s.componentStores tag with
  | none => false
  | some store => mhas store entity

/-- `deleteEntity(entity)`: delete the entity from every store, then drop
its bitmask entry. -/
def deleteEntity (s : EcsState α) (entity : Nat) : EcsState α :=
  { s with
    componentStores := s.componentStores.map fun p => (p.1, mdel p.2 entity)
    entityBitmasks := mdel s.entityBitmasks entity }

/-- The component-adding loop of `createEntity`, propagating a throw
(with the state at the moment of the throw). -/
def addAll (s : EcsState α) (entity : Nat) :
    List (Component α) → Option EcsError × EcsState α
  | [] => (none, s)
  | c :: rest =>
    match addComponent s entity c with
    | (some err, s') => (some err, s')
    | (none, s') => addAll s' entity rest

/-- `createEntity(...components)`: allocate `nextEntityId++`, seed an
all-zero bitmask, then add each initial component in order.  The returned
id is only observable when no component throws. -/
def createEntity (s : EcsState α) (comps : List (Component α)) :
    Option EcsError × EcsState α × Nat :=
  let entity := s.nextEntityId
  let s1 := { s with nextEntityId := s.nextEntityId + 1 }
  let s2 := { s1 with entityBitmasks := mset s1.entityBitmasks entity 0 }
  let r := addAll s2 entity comps
  (r.1, r.2, entity)

/-- `pascalCaseToCamelCase` from `src/utils.ts`: lowercase the first
character, keep the rest. -/
def pascalCaseToCamelCase (s : String) : String :=
  match s.data with
  | [] => s
  | c :: rest => String.mk (c.toLower :: rest)

/-- A query result record: one field per queried type, keyed by the
camel-cased type name; the stored value is `getComponent`'s result (the
source's non-null assertion on required fields is a type-level cast, not
a runtime check, so the field holds whatever `getComponent` returned). -/
def Record (α : Type) : Type := List (String × Option (Component α))

/-- `required.reduce((mask, def) => mask | (1n << this.getComponentIndex(def.type)), 0n)`:
a left fold that throws at the first unregistered type. -/
def requiredMaskOf (s : EcsState α) : List String → Nat → Option EcsError × Nat
  | [], mask => (none, mask)
  | tag :: rest, mask =>
    match getComponentIndex s tag with
    | none => (some (.unknownComponentType tag), mask)
    | some index => requiredMaskOf s rest (mask ||| (1 <<< index))

/-- The record-building loops of `queryEntities`: required fields first,
then optional fields, each written with `record[key] = getComponent(...)`. -/
def buildRecord (s : EcsState α) (entity : Nat) (required optional : List String) :
    Record α :=
  let r1 := required.foldl
    (fun r tag => mset r (pascalCaseToCamelCase tag) (getComponent s entity tag)) []
  optional.foldl
    (fun r tag => mset r (pascalCaseToCamelCase tag) (getComponent s entity tag)) r1

/-- `queryEntities(required, optional)` (the rest-args call shape is the
same implementation with `optional = []`): compute the required mask
(throwing before any scan on an unregistered required type), then keep
every bitmask entry with `(bitmask & requiredMask) === requiredMask` and
attach its record.  The method never writes a field, so the state is
returned untouched. -/
def queryEntities (s : EcsState α) (required optional : List String) :
    Option EcsError × EcsState α × List (Nat × Record α) :=
  match requiredMaskOf s required 0 with
  | (some err, _) => (some err, s, [])
  | (none, mask) =>
    (none, s,
      (s.entityBitmasks.filter fun p => p.2 &&& mask == mask).map
        fun p => (p.1, buildRecord s p.1 required optional))

/-- The public mutating operations, for stating trace properties. -/
inductive Op (α : Type) : Type where
  | createEntity (comps : List (Component α))
  | addComponent (entity : Nat) (c : Component α)
  | removeComponent (entity : Nat) (tag : String)
  | deleteEntity (entity : Nat)

/-- Apply one public operation. -/
def applyOp (s : EcsState α) : Op α → Option EcsError × EcsState α
  | .createEntity comps =>
    let r := createEntity s comps
    (r.1, r.2.1)
  | .addComponent entity c => addComponent s entity c
  | .removeComponent entity tag => removeComponent s entity tag
  | .deleteEntity entity => (none, deleteEntity s entity)

/-- Run a sequence of public operations; `none` when some operation
throws (the sequence did not complete without error). -/
def runOps (s : EcsState α) : List (Op α) → Option (EcsState α)
  | [] => some s
  | op :: rest =>
    match applyOp s op with
    | (some _, _) => none
    | (none, s') => runOps s' rest

/-- Does the operation only add components to entities that have already
been allocated by `createEntity`?  (`addComponent` on a never-allocated
id plants a store entry that a later `createEntity` of that same id
orphans by resetting the bitmask.) -/
def opAllowed (s : EcsState α) : Op α → Bool
  | .addComponent entity _ => decide (entity < s.nextEntityId)
  | _ => true

/-- Run a sequence of public operations in which components are only
added to already-allocated entities; `none` when some operation throws
or touches a not-yet-allocated entity. -/
def runOpsAlloc (s : EcsState α) : List (Op α) → Option (EcsState α)
  | [] => some s
  | op :: rest =>
    if opAllowed s op then
      match applyOp s op with
      | (some _, _) => none
      | (none, s') => runOpsAlloc s' rest
    else none

/-! ## Association-map lemmas -/

section MapLemmas

variable {κ β : Type} [DecidableEq κ]

theorem mget_mset_self (m : List (κ × β)) (k : κ) (v : β) :
    mget (mset m k v) k = some v := by
  induction m with
  | nil => simp [mset, mget]
  | cons p rest ih =>
    obtain ⟨k', v'⟩ := p
    by_cases h : k' = k
    · simp [mset, mget, h]
    · simp [mset, mget, h, ih]

theorem mget_mset_ne (m : List (κ × β)) {k k' : κ} (v : β) (h : k' ≠ k) :
    mget (mset m k v) k' = mget m k' := by
  induction m with
  | nil => simp [mset, mget, if_neg (Ne.symm h)]
  | cons p rest ih =>
    obtain ⟨k₀, v₀⟩ := p
    by_cases h0 : k₀ = k
    · have hne : ¬k₀ = k' := by
        rw [h0]; exact Ne.symm h
      simp [mset, mget, if_pos h0, if_neg hne]
    · simp [mset, mget, if_neg h0, ih]

theorem mget_mdel_self (m : List (κ × β)) (k : κ) :
    mget (mdel m k) k = none := by
  induction m with
  | nil => simp [mdel, mget]
  | cons p rest ih =>
    obtain ⟨k', v'⟩ := p
    by_cases h : k' = k
    · simp [mdel, h, ih]
    · simp [mdel, mget, h, ih]

theorem mget_mdel_ne (m : List (κ × β)) {k k' : κ} (h : k' ≠ k) :
    mget (mdel m k) k' = mget m k' := by
  induction m with
  | nil => simp [mdel]
  | cons p rest ih =>
    obtain ⟨k₀, v₀⟩ := p
    by_cases h0 : k₀ = k
    · have hne : ¬k₀ = k' := by
        rw [h0]; exact Ne.symm h
      simp [mdel, mget, if_pos h0, if_neg hne, ih]
    · simp [mdel, mget, if_neg h0, ih]

theorem mget_eq_none_iff (m : List (κ × β)) (k : κ) :
    mget m k = none ↔ k ∉ m.map Prod.fst := by
  induction m with
  | nil => simp [mget]
  | cons p rest ih =>
    obtain ⟨k', v'⟩ := p
    by_cases h : k' = k
    · simp [mget, h]
    · simp [mget, if_neg h, ih, Ne.symm h]

theorem mem_of_mget_eq_some {m : List (κ × β)} {k : κ} {v : β}
    (h : mget m k = some v) : (k, v) ∈ m := by
  induction m with
  | nil => simp [mget] at h
  | cons p rest ih =>
    obtain ⟨k', v'⟩ := p
    by_cases h0 : k' = k
    · subst h0
      simp [mget] at h
      simp [h]
    · simp only [mget, if_neg h0] at h
      exact List.mem_cons_of_mem _ (ih h)

theorem mget_eq_some_of_mem_of_nodup {m : List (κ × β)} {k : κ} {v : β}
    (hnd : (m.map Prod.fst).Nodup) (h : (k, v) ∈ m) : mget m k = some v := by
  induction m with
  | nil => simp at h
  | cons p rest ih =>
    obtain ⟨k', v'⟩ := p
    simp only [List.map_cons, List.nodup_cons] at hnd
    rcases List.mem_cons.mp h with h1 | h1
    · obtain ⟨rfl, rfl⟩ := Prod.mk.injEq .. ▸ h1
      simp [mget]
    · have hk : k' ≠ k := by
        rintro rfl
        exact hnd.1 (List.mem_map.mpr ⟨(k', v), h1, rfl⟩)
      simp [mget, hk, ih hnd.2 h1]

theorem keys_mset_subset (m : List (κ × β)) (k : κ) (v : β) :
    ∀ x ∈ (mset m k v).map Prod.fst, x ∈ m.map Prod.fst ∨ x = k := by
  induction m with
  | nil => simp [mset]
  | cons p rest ih =>
    obtain ⟨k', v'⟩ := p
    by_cases h : k' = k
    · simp [mset, h]
      tauto
    · intro x hx
      simp only [mset, if_neg h, List.map_cons, List.mem_cons] at hx ⊢
      rcases hx with hx | hx
      · exact Or.inl (Or.inl hx)
      · rcases ih x hx with h1 | h1
        · exact Or.inl (Or.inr h1)
        · exact Or.inr h1

theorem keys_nodup_mset (m : List (κ × β)) (k : κ) (v : β)
    (h : (m.map Prod.fst).Nodup) : ((mset m k v).map Prod.fst).Nodup := by
  induction m with
  | nil => simp [mset]
  | cons p rest ih =>
    obtain ⟨k', v'⟩ := p
    simp only [List.map_cons, List.nodup_cons] at h
    by_cases h0 : k' = k
    · simp only [mset, if_pos h0, List.map_cons, List.nodup_cons]
      exact ⟨h0 ▸ h.1, h.2⟩
    · simp only [mset, if_neg h0, List.map_cons, List.nodup_cons]
      refine ⟨fun hmem => ?_, ih h.2⟩
      rcases keys_mset_subset rest k v _ hmem with h1 | h1
      · exact h.1 h1
      · exact h0 h1

theorem mdel_sublist (m : List (κ × β)) (k : κ) : (mdel m k).Sublist m := by
  induction m with
  | nil => simp [mdel]
  | cons p rest ih =>
    obtain ⟨k', v'⟩ := p
    by_cases h : k' = k
    · simpa [mdel, h] using ih.cons (k', v')
    · simpa [mdel, h] using ih.cons₂ (k', v')

theorem keys_nodup_mdel (m : List (κ × β)) (k : κ)
    (h : (m.map Prod.fst).Nodup) : ((mdel m k).map Prod.fst).Nodup :=
  (((mdel_sublist m k).map Prod.fst).nodup h)

theorem mset_mset_same (m : List (κ × β)) (k : κ) (v w : β) :
    mset (mset m k v) k w = mset m k w := by
  induction m with
  | nil => simp [mset]
  | cons p rest ih =>
    obtain ⟨k', v'⟩ := p
    by_cases h : k' = k
    · simp [mset, h]
    · simp [mset, h, ih]

theorem mset_fresh_eq_append (m : List (κ × β)) (k : κ) (v : β)
    (h : k ∉ m.map Prod.fst) : mset m k v = m ++ [(k, v)] := by
  induction m with
  | nil => simp [mset]
  | cons p rest ih =>
    obtain ⟨k', v'⟩ := p
    simp only [List.map_cons, List.mem_cons, not_or] at h
    have hne : ¬k' = k := fun hh => h.1 hh.symm
    simp [mset, if_neg hne, ih h.2]

theorem mget_map_value {γ : Type} (m : List (κ × β)) (f : β → γ) (k : κ) :
    mget (m.map fun p => (p.1, f p.2)) k = (mget m k).map f := by
  induction m with
  | nil => simp [mget]
  | cons p rest ih =>
    obtain ⟨k', v'⟩ := p
    by_cases h : k' = k
    · simp [mget, h]
    · simp [mget, h, ih]

theorem mget_map_mdel {κ₂ : Type} [DecidableEq κ₂] {γ : Type}
    (m : List (κ × List (κ₂ × γ))) (e : κ₂) (k : κ) :
    mget (m.map fun p => (p.1, mdel p.2 e)) k
      = (mget m k).map fun st => mdel st e := by
  induction m with
  | nil => simp [mget]
  | cons p rest ih =>
    obtain ⟨k', v'⟩ := p
    by_cases h : k' = k
    · simp [mget, h]
    · simp [mget, h, ih]

/-- Membership of a key among the filtered entries of a nodup-keyed map is
the lookup satisfying the predicate. -/
theorem mem_keys_filter_iff {m : List (κ × β)} (hnd : (m.map Prod.fst).Nodup)
    (p : κ × β → Bool) (k : κ) :
    k ∈ (m.filter p).map Prod.fst ↔ ∃ v, mget m k = some v ∧ p (k, v) = true := by
  constructor
  · intro h
    obtain ⟨⟨k₀, v₀⟩, hmem, rfl⟩ := List.mem_map.mp h
    have := List.mem_filter.mp hmem
    exact ⟨v₀, mget_eq_some_of_mem_of_nodup hnd this.1, this.2⟩
  · rintro ⟨v, hget, hp⟩
    exact List.mem_map.mpr ⟨(k, v),
      List.mem_filter.mpr ⟨mem_of_mget_eq_some hget, hp⟩, rfl⟩

end MapLemmas

/-! ## Registration characterization -/

/-- Tags paired with consecutive indices starting at `n`. -/
def indexedFrom (n : Nat) : List String → List (String × Nat)
  | [] => []
  | t :: rest => (t, n) :: indexedFrom (n + 1) rest

/-- The sublist of `tags` keeping only the first occurrence of each tag
not already in `seen` (first-registration order). -/
def dedupKeep (seen : List String) : List String → List String
  | [] => []
  | t :: rest =>
    if t ∈ seen then dedupKeep seen rest else t :: dedupKeep (t :: seen) rest

theorem indexedFrom_append (n : Nat) (l₁ l₂ : List String) :
    indexedFrom n (l₁ ++ l₂) = indexedFrom n l₁ ++ indexedFrom (n + l₁.length) l₂ := by
  induction l₁ generalizing n with
  | nil => simp [indexedFrom]
  | cons t rest ih =>
    show (t, n) :: indexedFrom (n + 1) (rest ++ l₂)
        = (t, n) :: (indexedFrom (n + 1) rest ++ indexedFrom (n + (rest.length + 1)) l₂)
    rw [ih (n + 1)]
    have harith : n + 1 + rest.length = n + (rest.length + 1) := by omega
    rw [harith]

theorem mget_indexedFrom_mem (n : Nat) (l : List String) (t : String) :
    (mget (indexedFrom n l) t).isSome = true ↔ t ∈ l := by
  induction l generalizing n with
  | nil => simp [indexedFrom, mget]
  | cons t₀ rest ih =>
    by_cases h : t₀ = t
    · simp [indexedFrom, mget, h]
    · simp [indexedFrom, mget, if_neg h, ih (n + 1), Ne.symm h]

theorem mget_indexedFrom_ge {n : Nat} {l : List String} {t : String} {i : Nat}
    (h : mget (indexedFrom n l) t = some i) : n ≤ i := by
  induction l generalizing n with
  | nil => simp [indexedFrom, mget] at h
  | cons t₀ rest ih =>
    by_cases h0 : t₀ = t
    · simp [indexedFrom, mget, h0] at h
      omega
    · simp only [indexedFrom, mget, if_neg h0] at h
      have := ih h
      omega

theorem mget_indexedFrom_lt {n : Nat} {l : List String} {t : String} {i : Nat}
    (h : mget (indexedFrom n l) t = some i) : i < n + l.length := by
  induction l generalizing n with
  | nil => simp [indexedFrom, mget] at h
  | cons t₀ rest ih =>
    by_cases h0 : t₀ = t
    · simp [indexedFrom, mget, h0] at h
      simp only [List.length_cons]
      omega
    · simp only [indexedFrom, mget, if_neg h0] at h
      have := ih h
      simp only [List.length_cons]
      omega

theorem indexedFrom_inj {n : Nat} {l : List String} {t₁ t₂ : String} {i : Nat}
    (h₁ : mget (indexedFrom n l) t₁ = some i)
    (h₂ : mget (indexedFrom n l) t₂ = some i) : t₁ = t₂ := by
  induction l generalizing n with
  | nil => simp [indexedFrom, mget] at h₁
  | cons t₀ rest ih =>
    by_cases e₁ : t₀ = t₁ <;> by_cases e₂ : t₀ = t₂
    · exact e₁ ▸ e₂ ▸ rfl
    · simp only [indexedFrom, mget, if_pos e₁, if_neg e₂] at h₁ h₂
      have := mget_indexedFrom_ge h₂
      simp only [Option.some.injEq] at h₁
      omega
    · simp only [indexedFrom, mget, if_neg e₁, if_pos e₂] at h₁ h₂
      have := mget_indexedFrom_ge h₁
      simp only [Option.some.injEq] at h₂
      omega
    · simp only [indexedFrom, mget, if_neg e₁, if_neg e₂] at h₁ h₂
      exact ih h₁ h₂

theorem keys_indexedFrom (n : Nat) (l : List String) :
    (indexedFrom n l).map Prod.fst = l := by
  induction l generalizing n with
  | nil => rfl
  | cons t rest ih => simp [indexedFrom, ih]

theorem dedupKeep_congr (ts : List String) :
    ∀ {seen₁ seen₂ : List String}, (∀ x, x ∈ seen₁ ↔ x ∈ seen₂) →
    dedupKeep seen₁ ts = dedupKeep seen₂ ts := by
  induction ts with
  | nil => intro seen₁ seen₂ _; rfl
  | cons t rest ih =>
    intro seen₁ seen₂ h
    by_cases hm : t ∈ seen₁
    · simp only [dedupKeep, if_pos hm, if_pos ((h t).mp hm)]
      exact ih h
    · simp only [dedupKeep, if_neg hm, if_neg (fun hh => hm ((h t).mpr hh))]
      refine congrArg _ (ih fun x => ?_)
      simp only [List.mem_cons]
      exact or_congr Iff.rfl (h x)

/-- `registerComponentType` leaves stores and bitmasks untouched. -/
theorem registerComponentType_stores (s : EcsState α) (t : String) :
    (registerComponentType s t).componentStores = s.componentStores ∧
    (registerComponentType s t).entityBitmasks = s.entityBitmasks ∧
    (registerComponentType s t).nextEntityId = s.nextEntityId := by
  unfold registerComponentType
  split <;> simp

theorem createECS_stores (tags : List String) :
    (createECS tags : EcsState α).componentStores = [] ∧
    (createECS tags : EcsState α).entityBitmasks = [] ∧
    (createECS tags : EcsState α).nextEntityId = 0 := by
  suffices h : ∀ (s : EcsState α),
      (tags.foldl registerComponentType s).componentStores = s.componentStores ∧
      (tags.foldl registerComponentType s).entityBitmasks = s.entityBitmasks ∧
      (tags.foldl registerComponentType s).nextEntityId = s.nextEntityId by
    exact h {}
  induction tags with
  | nil => simp [createECS]
  | cons t rest ih =>
    intro s
    simp only [List.foldl_cons]
    obtain ⟨h1, h2, h3⟩ := ih (registerComponentType s t)
    obtain ⟨g1, g2, g3⟩ := registerComponentType_stores s t
    exact ⟨h1.trans g1, h2.trans g2, h3.trans g3⟩

/-- Folding registration over `tags`, starting from a state whose index
map lists `l` with consecutive indices, extends `l` by the unseen tags in
first-occurrence order. -/
theorem foldl_register_indices (tags : List String) :
    ∀ (s : EcsState α) (l : List String),
      s.componentIndices = indexedFrom 0 l →
      s.nextComponentIndex = l.length →
      (tags.foldl registerComponentType s).componentIndices
          = indexedFrom 0 (l ++ dedupKeep l tags) ∧
      (tags.foldl registerComponentType s).nextComponentIndex
          = (l ++ dedupKeep l tags).length := by
  induction tags with
  | nil =>
    intro s l h1 h2
    simp [dedupKeep, h1, h2]
  | cons t rest ih =>
    intro s l h1 h2
    by_cases hm : t ∈ l
    · have hhas : mhas s.componentIndices t = true := by
        unfold mhas
        rw [h1]
        exact (mget_indexedFrom_mem 0 l t).mpr hm
      simp only [List.foldl_cons, registerComponentType, hhas, if_pos rfl,
        dedupKeep, if_pos hm]
      exact ih s l h1 h2
    · have hhas : mhas s.componentIndices t = false := by
        unfold mhas
        rw [h1]
        rw [Bool.eq_false_iff]
        intro hh
        exact hm ((mget_indexedFrom_mem 0 l t).mp hh)
      have hfresh : t ∉ (indexedFrom 0 l).map Prod.fst := by
        rw [keys_indexedFrom]
        exact hm
      have hreg : registerComponentType s t =
          { s with
            componentIndices := mset s.componentIndices t s.nextComponentIndex
            allowedComponents := mset s.allowedComponents t t
            nextComponentIndex := s.nextComponentIndex + 1 } := by
        unfold registerComponentType
        rw [hhas]
        simp
      have hidx : (registerComponentType s t).componentIndices
          = indexedFrom 0 (l ++ [t]) := by
        rw [hreg]
        simp only [h1, h2]
        rw [mset_fresh_eq_append _ _ _ hfresh, indexedFrom_append]
        simp [indexedFrom]
      have hnext : (registerComponentType s t).nextComponentIndex
          = (l ++ [t]).length := by
        rw [hreg]
        simp [h2]
      obtain ⟨ih1, ih2⟩ := ih (registerComponentType s t) (l ++ [t]) hidx hnext
      have hdd : dedupKeep (l ++ [t]) rest = dedupKeep (t :: l) rest := by
        refine dedupKeep_congr rest fun x => ?_
        simp [Or.comm]
      constructor
      · rw [List.foldl_cons, ih1, hdd]
        simp only [dedupKeep, if_neg hm]
        rw [List.append_assoc]
        rfl
      · rw [List.foldl_cons, ih2, hdd]
        simp only [dedupKeep, if_neg hm]
        rw [List.append_assoc]
        rfl

/-- The full characterization of the index map built by `ECS.create`:
the tags in first-registration order, deduplicated, indexed `0, 1, 2, …`. -/
theorem createECS_indices (tags : List String) :
    (createECS tags : EcsState α).componentIndices
        = indexedFrom 0 (dedupKeep [] tags) ∧
    (createECS tags : EcsState α).nextComponentIndex
        = (dedupKeep [] tags).length := by
  have h := foldl_register_indices (α := α) tags {} [] rfl rfl
  simpa [createECS] using h

/-! ## Basic operation facts -/

theorem getComponent_eq_bind (s : EcsState α) (e : Nat) (t : String) :
    getComponent s e t = (mget s.componentStores t).bind fun st => mget st e := by
  unfold getComponent
  cases mget s.componentStores t <;> simp

theorem hasComponent_eq_isSome (s : EcsState α) (e : Nat) (t : String) :
    hasComponent s e t = (getComponent s e t).isSome := by
  unfold hasComponent mhas
  rw [getComponent_eq_bind]
  cases mget s.componentStores t <;> simp

theorem hasComponent_true_iff (s : EcsState α) (e : Nat) (t : String) :
    hasComponent s e t = true ↔
      ∃ st, mget s.componentStores t = some st ∧ (mget st e).isSome = true := by
  rw [hasComponent_eq_isSome, getComponent_eq_bind]
  cases h : mget s.componentStores t <;> simp [h, mhas]

theorem testBit_one_shiftLeft (i j : Nat) :
    Nat.testBit (1 <<< i) j = decide (i = j) := by
  rw [Nat.shiftLeft_eq, one_mul]
  by_cases h : i = j
  · subst h
    simp
  · simp [Nat.testBit_two_pow_of_ne h, h]

theorem testBit_one_shiftLeft_self (i : Nat) : Nat.testBit (1 <<< i) i = true := by
  rw [testBit_one_shiftLeft]
  simp

theorem testBit_one_shiftLeft_ne {i j : Nat} (h : ¬i = j) :
    Nat.testBit (1 <<< i) j = false := by
  rw [testBit_one_shiftLeft]
  simp [h]

/-- `addComponent` on a registered token, normalized to one update of the
store table and one update of the bitmask table. -/
theorem addComponent_eq {s : EcsState α} {e : Nat} {c : Component α} {i : Nat}
    (h : getComponentIndex s c.token = some i) :
    addComponent s e c =
      (none,
        { s with
          componentStores := mset s.componentStores c.token
            (mset ((mget s.componentStores c.token).getD []) e c)
          entityBitmasks := mset s.entityBitmasks e
            ((mget s.entityBitmasks e).getD 0 ||| (1 <<< i)) }) := by
  simp only [addComponent, h]
  by_cases hs : mhas s.componentStores c.token = true
  · simp [hs]
  · have hnone : mget s.componentStores c.token = none := by
      unfold mhas at hs
      exact Option.not_isSome_iff_eq_none.mp (by simpa using hs)
    simp [hs, hnone, mget_mset_self, mset_mset_same]

theorem addComponent_err {s : EcsState α} {e : Nat} {c : Component α}
    (h : getComponentIndex s c.token = none) :
    addComponent s e c = (some (.unknownComponentType c.token), s) := by
  simp only [addComponent, h]

theorem removeComponent_err {s : EcsState α} {e : Nat} {tag : String}
    (h : getComponentIndex s tag = none) :
    removeComponent s e tag = (some (.unknownComponentType tag), s) := by
  simp only [removeComponent, h]

theorem removeComponent_eq_none {s : EcsState α} {e : Nat} {tag : String} {i : Nat}
    (h : getComponentIndex s tag = some i)
    (hst : mget s.componentStores tag = none) :
    removeComponent s e tag =
      (none,
        { s with
          entityBitmasks := mset s.entityBitmasks e
            (Nat.ldiff ((mget s.entityBitmasks e).getD 0) (1 <<< i)) }) := by
  simp only [removeComponent, h, hst]

theorem removeComponent_eq_some {s : EcsState α} {e : Nat} {tag : String} {i : Nat}
    {st : List (Nat × Component α)}
    (h : getComponentIndex s tag = some i)
    (hst : mget s.componentStores tag = some st) :
    removeComponent s e tag =
      (none,
        { s with
          componentStores := mset s.componentStores tag (mdel st e)
          entityBitmasks := mset s.entityBitmasks e
            (Nat.ldiff ((mget s.entityBitmasks e).getD 0) (1 <<< i)) }) := by
  simp only [removeComponent, h, hst]

/-! ## The reachable-state invariant -/

/-- Invariants of every state reachable through the public API when
components are only added to already-allocated entities: injective index
assignment, stores only for registered tags, store entries only for
allocated ids, unique bitmask keys, and invariant I1 (bit `i` of an
entity's bitmask is set iff the store of the tag with index `i` holds an
entry for it). -/
structure Inv (s : EcsState α) : Prop where
  idx_inj : ∀ t₁ t₂ i, mget s.componentIndices t₁ = some i →
      mget s.componentIndices t₂ = some i → t₁ = t₂
  stores_reg : ∀ t, (mget s.componentStores t).isSome = true →
      (mget s.componentIndices t).isSome = true
  stores_lt : ∀ t st e, mget s.componentStores t = some st →
      (mget st e).isSome = true → e < s.nextEntityId
  bm_nodup : (s.entityBitmasks.map Prod.fst).Nodup
  i1 : ∀ t i e, mget s.componentIndices t = some i →
      Nat.testBit ((mget s.entityBitmasks e).getD 0) i = hasComponent s e t

theorem inv_createECS (tags : List String) : Inv (createECS tags : EcsState α) := by
  obtain ⟨hs, hb, _⟩ := createECS_stores (α := α) tags
  obtain ⟨hi, _⟩ := createECS_indices (α := α) tags
  refine ⟨?_, ?_, ?_, ?_, ?_⟩
  · intro t₁ t₂ i h₁ h₂
    rw [hi] at h₁ h₂
    exact indexedFrom_inj h₁ h₂
  · intro t h
    rw [hs] at h
    simp [mget] at h
  · intro t st e h
    rw [hs] at h
    simp [mget] at h
  · rw [hb]
    simp
  · intro t i e _
    rw [hb, hasComponent_eq_isSome, getComponent_eq_bind, hs]
    simp [mget]

theorem addComponent_fields (s : EcsState α) (e : Nat) (c : Component α) :
    (addComponent s e c).2.componentIndices = s.componentIndices ∧
    (addComponent s e c).2.nextComponentIndex = s.nextComponentIndex ∧
    (addComponent s e c).2.nextEntityId = s.nextEntityId := by
  cases h : getComponentIndex s c.token with
  | none => rw [addComponent_err h]; exact ⟨rfl, rfl, rfl⟩
  | some i => rw [addComponent_eq h]; exact ⟨rfl, rfl, rfl⟩

theorem inv_addComponent {s : EcsState α} (hinv : Inv s) {e : Nat} {c : Component α}
    {s' : EcsState α} (he : e < s.nextEntityId)
    (h : addComponent s e c = (none, s')) : Inv s' := by
  cases hidx : getComponentIndex s c.token with
  | none =>
    rw [addComponent_err hidx] at h
    simp at h
  | some i =>
    rw [addComponent_eq hidx] at h
    simp only [Prod.mk.injEq, true_and] at h
    subst h
    unfold getComponentIndex at hidx
    refine ⟨?_, ?_, ?_, ?_, ?_⟩
    · intro t₁ t₂ j h₁ h₂
      exact hinv.idx_inj t₁ t₂ j h₁ h₂
    · intro t ht
      by_cases htag : t = c.token
      · subst htag
        simp [hidx]
      · dsimp only at ht
        rw [mget_mset_ne _ _ htag] at ht
        exact hinv.stores_reg t ht
    · intro t st e' hst he'
      by_cases htag : t = c.token
      · subst htag
        dsimp only at hst
        rw [mget_mset_self] at hst
        obtain rfl := (Option.some.injEq _ _).mp hst
        by_cases hee : e' = e
        · subst hee
          exact he
        · rw [mget_mset_ne _ _ hee] at he'
          cases hs0 : mget s.componentStores c.token with
          | none =>
            rw [hs0] at he'
            simp [mget] at he'
          | some st₀ =>
            rw [hs0] at he'
            exact hinv.stores_lt _ _ _ hs0 (by simpa using he')
      · dsimp only at hst
        rw [mget_mset_ne _ _ htag] at hst
        exact hinv.stores_lt _ _ _ hst he'
    · exact keys_nodup_mset _ _ _ hinv.bm_nodup
    · intro t' i' e' hti
      dsimp only at hti ⊢
      by_cases hee : e' = e
      · subst hee
        rw [mget_mset_self]
        by_cases htag : t' = c.token
        · subst htag
          obtain rfl : i' = i := by
            rw [hti] at hidx
            exact (Option.some.injEq _ _).mp hidx
          simp only [Option.getD_some, Nat.testBit_lor, testBit_one_shiftLeft_self,
            Bool.or_true]
          unfold hasComponent
          rw [mget_mset_self]
          simp [mhas, mget_mset_self]
        · have hii : ¬(i = i') := by
            intro hcon
            subst hcon
            exact htag (hinv.idx_inj t' c.token i hti hidx)
          simp only [Option.getD_some, Nat.testBit_lor, testBit_one_shiftLeft_ne hii,
            Bool.or_false]
          rw [hinv.i1 t' i' e' hti]
          unfold hasComponent
          rw [mget_mset_ne _ _ htag]
      · rw [mget_mset_ne _ _ hee, hinv.i1 t' i' e' hti]
        unfold hasComponent
        by_cases htag : t' = c.token
        · subst htag
          rw [mget_mset_self]
          cases hs0 : mget s.componentStores c.token with
          | none =>
            simp [mhas, mget_mset_ne _ _ hee, mget, Ne.symm hee]
          | some st₀ =>
            simp only [Option.getD_some]
            unfold mhas
            rw [mget_mset_ne _ _ hee]
        · rw [mget_mset_ne _ _ htag]

theorem inv_removeComponent {s : EcsState α} (hinv : Inv s) {e : Nat} {tag : String}
    {s' : EcsState α} (h : removeComponent s e tag = (none, s')) : Inv s' := by
  cases hidx : getComponentIndex s tag with
  | none =>
    rw [removeComponent_err hidx] at h
    simp at h
  | some i =>
    unfold getComponentIndex at hidx
    cases hs0 : mget s.componentStores tag with
    | none =>
      rw [removeComponent_eq_none hidx hs0] at h
      simp only [Prod.mk.injEq, true_and] at h
      subst h
      refine ⟨hinv.idx_inj, hinv.stores_reg, hinv.stores_lt,
        keys_nodup_mset _ _ _ hinv.bm_nodup, ?_⟩
      intro t' i' e' hti
      dsimp only at hti ⊢
      by_cases hee : e' = e
      · subst hee
        rw [mget_mset_self]
        by_cases htag : t' = tag
        · subst htag
          obtain rfl : i' = i := by
            rw [hti] at hidx
            exact (Option.some.injEq _ _).mp hidx
          simp only [Option.getD_some, Nat.testBit_ldiff, testBit_one_shiftLeft_self,
            Bool.not_true, Bool.and_false]
          unfold hasComponent
          rw [hs0]
        · have hii : ¬(i = i') := by
            intro hcon
            subst hcon
            exact htag (hinv.idx_inj t' tag i hti hidx)
          simp only [Option.getD_some, Nat.testBit_ldiff, testBit_one_shiftLeft_ne hii,
            Bool.not_false, Bool.and_true]
          exact hinv.i1 t' i' e' hti
      · rw [mget_mset_ne _ _ hee]
        exact hinv.i1 t' i' e' hti
    | some st =>
      rw [removeComponent_eq_some hidx hs0] at h
      simp only [Prod.mk.injEq, true_and] at h
      subst h
      refine ⟨hinv.idx_inj, ?_, ?_, keys_nodup_mset _ _ _ hinv.bm_nodup, ?_⟩
      · intro t ht
        by_cases htag : t = tag
        · subst htag
          exact hinv.stores_reg _ (by simp [hs0])
        · dsimp only at ht
          rw [mget_mset_ne _ _ htag] at ht
          exact hinv.stores_reg t ht
      · intro t st' e' hst he'
        by_cases htag : t = tag
        · subst htag
          dsimp only at hst
          rw [mget_mset_self] at hst
          obtain rfl := (Option.some.injEq _ _).mp hst
          by_cases hee : e' = e
          · subst hee
            rw [mget_mdel_self] at he'
            simp at he'
          · rw [mget_mdel_ne _ hee] at he'
            exact hinv.stores_lt _ _ _ hs0 he'
        · dsimp only at hst
          rw [mget_mset_ne _ _ htag] at hst
          exact hinv.stores_lt _ _ _ hst he'
      · intro t' i' e' hti
        dsimp only at hti ⊢
        by_cases hee : e' = e
        · subst hee
          rw [mget_mset_self]
          by_cases htag : t' = tag
          · subst htag
            obtain rfl : i' = i := by
              rw [hti] at hidx
              exact (Option.some.injEq _ _).mp hidx
            simp only [Option.getD_some, Nat.testBit_ldiff, testBit_one_shiftLeft_self,
              Bool.not_true, Bool.and_false]
            unfold hasComponent
            rw [mget_mset_self]
            simp [mhas, mget_mdel_self]
          · have hii : ¬(i = i') := by
              intro hcon
              subst hcon
              exact htag (hinv.idx_inj t' tag i hti hidx)
            simp only [Option.getD_some, Nat.testBit_ldiff, testBit_one_shiftLeft_ne hii,
              Bool.not_false, Bool.and_true]
            rw [hinv.i1 t' i' e' hti]
            unfold hasComponent
            rw [mget_mset_ne _ _ htag]
        · rw [mget_mset_ne _ _ hee, hinv.i1 t' i' e' hti]
          unfold hasComponent
          by_cases htag : t' = tag
          · subst htag
            rw [mget_mset_self, hs0]
            unfold mhas
            show (mget st e').isSome = (mget (mdel st e) e').isSome
            rw [mget_mdel_ne _ hee]
          · rw [mget_mset_ne _ _ htag]

theorem inv_deleteEntity {s : EcsState α} (hinv : Inv s) (e : Nat) :
    Inv (deleteEntity s e) := by
  unfold deleteEntity
  refine ⟨hinv.idx_inj, ?_, ?_, ?_, ?_⟩
  · intro t ht
    dsimp only at ht
    rw [mget_map_mdel] at ht
    exact hinv.stores_reg t (by
      cases hs0 : mget s.componentStores t <;> simp [hs0] at ht ⊢)
  · intro t st e' hst he'
    dsimp only at hst
    rw [mget_map_mdel] at hst
    cases hs0 : mget s.componentStores t with
    | none => rw [hs0] at hst; simp at hst
    | some st₀ =>
      rw [hs0] at hst
      obtain rfl := (Option.some.injEq _ _).mp hst
      by_cases hee : e' = e
      · subst hee
        rw [mget_mdel_self] at he'
        simp at he'
      · rw [mget_mdel_ne _ hee] at he'
        exact hinv.stores_lt _ _ _ hs0 he'
  · exact keys_nodup_mdel _ _ hinv.bm_nodup
  · intro t' i' e' hti
    dsimp only at hti ⊢
    by_cases hee : e' = e
    · subst hee
      rw [mget_mdel_self]
      simp only [Option.getD_none, Nat.zero_testBit]
      unfold hasComponent
      rw [mget_map_mdel]
      cases hs0 : mget s.componentStores t' with
      | none => simp [hs0]
      | some st₀ => simp [hs0, mhas, mget_mdel_self]
    · rw [mget_mdel_ne _ hee, hinv.i1 t' i' e' hti]
      unfold hasComponent
      rw [mget_map_mdel]
      cases hs0 : mget s.componentStores t' with
      | none => simp [hs0]
      | some st₀ =>
        simp only [hs0, Option.map_some]
        unfold mhas
        show (mget st₀ e').isSome = (mget (mdel st₀ e) e').isSome
        rw [mget_mdel_ne _ hee]

theorem inv_addAll {entity : Nat} :
    ∀ {comps : List (Component α)} {s s' : EcsState α}, Inv s →
      entity < s.nextEntityId → addAll s entity comps = (none, s') → Inv s' := by
  intro comps
  induction comps with
  | nil =>
    intro s s' hinv _ h
    simp only [addAll, Prod.mk.injEq, true_and] at h
    exact h ▸ hinv
  | cons c rest ih =>
    intro s s' hinv he h
    simp only [addAll] at h
    cases hadd : addComponent s entity c with
    | mk err s₁ =>
      rw [hadd] at h
      cases err with
      | some err => simp at h
      | none =>
        have hinv₁ : Inv s₁ := inv_addComponent hinv he hadd
        have hnext : s₁.nextEntityId = s.nextEntityId := by
          have := (addComponent_fields s entity c).2.2
          rw [hadd] at this
          exact this
        exact ih hinv₁ (hnext ▸ he) h

theorem inv_createEntity {s : EcsState α} (hinv : Inv s) {comps : List (Component α)}
    {s' : EcsState α} {e : Nat} (h : createEntity s comps = (none, s', e)) : Inv s' := by
  unfold createEntity at h
  simp only [Prod.mk.injEq] at h
  obtain ⟨h1, h2, -⟩ := h
  have hinv₂ : Inv ({ s with
      nextEntityId := s.nextEntityId + 1,
      entityBitmasks := mset s.entityBitmasks s.nextEntityId 0 } : EcsState α) := by
    refine ⟨hinv.idx_inj, hinv.stores_reg, ?_, keys_nodup_mset _ _ _ hinv.bm_nodup, ?_⟩
    · intro t st e' hst he'
      dsimp only at hst ⊢
      have := hinv.stores_lt _ _ _ hst he'
      omega
    · intro t' i' e' hti
      dsimp only at hti ⊢
      by_cases hee : e' = s.nextEntityId
      · subst hee
        rw [mget_mset_self]
        simp only [Option.getD_some, Nat.zero_testBit]
        cases hh : hasComponent s s.nextEntityId t' with
        | false => exact hh.symm
        | true =>
          obtain ⟨st, hst, hmem⟩ := (hasComponent_true_iff s s.nextEntityId t').mp hh
          have := hinv.stores_lt _ _ _ hst hmem
          omega
      · rw [mget_mset_ne _ _ hee]
        exact hinv.i1 t' i' e' hti
  refine inv_addAll hinv₂ (Nat.lt_succ_self _) (Prod.ext h1 h2)

theorem inv_applyOp {s s' : EcsState α} {op : Op α} (hinv : Inv s)
    (hallow : opAllowed s op = true) (h : applyOp s op = (none, s')) : Inv s' := by
  cases op with
  | createEntity comps =>
    simp only [applyOp] at h
    have h1 : (createEntity s comps).1 = none := congrArg Prod.fst h
    have h2 : (createEntity s comps).2.1 = s' := congrArg Prod.snd h
    exact inv_createEntity hinv (Prod.ext h1 (Prod.ext h2 rfl))
  | addComponent e c =>
    simp only [applyOp] at h
    simp only [opAllowed, decide_eq_true_eq] at hallow
    exact inv_addComponent hinv hallow h
  | removeComponent e tag =>
    simp only [applyOp] at h
    exact inv_removeComponent hinv h
  | deleteEntity e =>
    simp only [applyOp, Prod.mk.injEq, true_and] at h
    exact h ▸ inv_deleteEntity hinv e

theorem inv_runOpsAlloc :
    ∀ {ops : List (Op α)} {s s' : EcsState α}, Inv s →
      runOpsAlloc s ops = some s' → Inv s' := by
  intro ops
  induction ops with
  | nil =>
    intro s s' hinv h
    simp only [runOpsAlloc, Option.some.injEq] at h
    exact h ▸ hinv
  | cons op rest ih =>
    intro s s' hinv h
    simp only [runOpsAlloc] at h
    by_cases hallow : opAllowed s op = true
    · rw [if_pos hallow] at h
      cases hop : applyOp s op with
      | mk err s₁ =>
        rw [hop] at h
        cases err with
        | some err => simp at h
        | none => exact ih (inv_applyOp hinv hallow hop) h
    · rw [if_neg hallow] at h
      simp at h

/-- Every state reached through the public API (adding components only to
already-allocated entities) satisfies the invariant. -/
theorem inv_reachable {tags : List String} {ops : List (Op α)} {s : EcsState α}
    (h : runOpsAlloc (createECS tags) ops = some s) : Inv s :=
  inv_runOpsAlloc (inv_createECS tags) h

/-! ## Query characterization -/

theorem requiredMaskOf_ok {s : EcsState α} :
    ∀ {req : List String}, (∀ t ∈ req, (getComponentIndex s t).isSome = true) →
      ∀ m, (requiredMaskOf s req m).1 = none := by
  intro req
  induction req with
  | nil => intro _ m; rfl
  | cons t rest ih =>
    intro hreq m
    obtain ⟨i, hi⟩ := Option.isSome_iff_exists.mp (hreq t (List.mem_cons_self t rest))
    simp only [requiredMaskOf, hi]
    exact ih (fun t' ht' => hreq t' (List.mem_cons_of_mem t ht')) _

theorem requiredMaskOf_testBit {s : EcsState α} :
    ∀ {req : List String}, (∀ t ∈ req, (getComponentIndex s t).isSome = true) →
      ∀ m j, Nat.testBit (requiredMaskOf s req m).2 j =
        (Nat.testBit m j ||
          req.any fun t => decide (getComponentIndex s t = some j)) := by
  intro req
  induction req with
  | nil =>
    intro _ m j
    simp [requiredMaskOf]
  | cons t rest ih =>
    intro hreq m j
    obtain ⟨i, hi⟩ := Option.isSome_iff_exists.mp (hreq t (List.mem_cons_self t rest))
    simp only [requiredMaskOf, hi]
    rw [ih (fun t' ht' => hreq t' (List.mem_cons_of_mem t ht')) _ j]
    simp only [List.any_cons, hi, Nat.testBit_lor, testBit_one_shiftLeft,
      Option.some.injEq, Bool.or_assoc]

theorem queryEntities_fst_eq (s : EcsState α) {req : List String} (opt : List String)
    {mask : Nat} (hmask : requiredMaskOf s req 0 = (none, mask)) :
    (queryEntities s req opt).1 = none ∧
    (queryEntities s req opt).2.1 = s ∧
    (queryEntities s req opt).2.2 =
      (s.entityBitmasks.filter fun p => p.2 &&& mask == mask).map
        fun p => (p.1, buildRecord s p.1 req opt) := by
  unfold queryEntities
  rw [hmask]
  exact ⟨rfl, rfl, rfl⟩

theorem queryEntities_mem {s : EcsState α}
    (hnd : (s.entityBitmasks.map Prod.fst).Nodup) {req : List String}
    (opt : List String) {mask : Nat}
    (hmask : requiredMaskOf s req 0 = (none, mask)) (e : Nat) :
    e ∈ (queryEntities s req opt).2.2.map Prod.fst ↔
      ∃ v, mget s.entityBitmasks e = some v ∧ v &&& mask = mask := by
  obtain ⟨-, -, hres⟩ := queryEntities_fst_eq s opt hmask
  rw [hres, List.map_map]
  have hcomp : (Prod.fst ∘ fun p : Nat × Nat => (p.1, buildRecord s p.1 req opt))
      = Prod.fst := rfl
  rw [hcomp, mem_keys_filter_iff hnd]
  constructor
  · rintro ⟨v, hv, hp⟩
    exact ⟨v, hv, by simpa using hp⟩
  · rintro ⟨v, hv, hp⟩
    exact ⟨v, hv, by simpa using hp⟩

theorem queryEntities_record {s : EcsState α} {req : List String} (opt : List String)
    {mask : Nat} (hmask : requiredMaskOf s req 0 = (none, mask))
    {p : Nat × Record α} (h : p ∈ (queryEntities s req opt).2.2) :
    p.2 = buildRecord s p.1 req opt := by
  obtain ⟨-, -, hres⟩ := queryEntities_fst_eq s opt hmask
  rw [hres] at h
  obtain ⟨⟨e₀, v₀⟩, -, heq⟩ := List.mem_map.mp h
  rw [← heq]

/-! ## Further helpers for the claims -/

theorem lor_lor_self (a b : Nat) : a ||| b ||| b = a ||| b := by
  apply Nat.eq_of_testBit_eq
  intro j
  simp [Nat.testBit_lor, Bool.or_assoc]

theorem ldiff_zero_left (n : Nat) : Nat.ldiff 0 n = 0 := by
  apply Nat.eq_of_testBit_eq
  intro j
  simp [Nat.testBit_ldiff]

theorem land_eq_right_iff (v mask : Nat) :
    v &&& mask = mask ↔ ∀ j, Nat.testBit mask j = true → Nat.testBit v j = true := by
  constructor
  · intro h j hj
    have hc := congrArg (fun x => Nat.testBit x j) h
    simp only [Nat.testBit_land, hj, Bool.and_true] at hc
    exact hc
  · intro h
    apply Nat.eq_of_testBit_eq
    intro j
    rw [Nat.testBit_land]
    cases hj : Nat.testBit mask j
    · simp
    · simp [h j hj]

theorem mem_keys_of_mget_eq_some {κ β : Type} [DecidableEq κ]
    {m : List (κ × β)} {k : κ} {v : β} (h : mget m k = some v) :
    k ∈ m.map Prod.fst := by
  by_contra hc
  rw [← mget_eq_none_iff] at hc
  rw [h] at hc
  exact Option.noConfusion hc

/-- With an empty required list the mask is `0`, every live entity
matches, and each record is just the optional fields. -/
theorem queryEntities_nil_required (s : EcsState α) (opt : List String) :
    (queryEntities s ([] : List String) opt).1 = none ∧
    (queryEntities s ([] : List String) opt).2.2
      = s.entityBitmasks.map fun p => (p.1, buildRecord s p.1 [] opt) := by
  obtain ⟨h1, -, hres⟩ :=
    queryEntities_fst_eq s opt (show requiredMaskOf s [] 0 = (none, 0) from rfl)
  refine ⟨h1, ?_⟩
  rw [hres, List.filter_eq_self.mpr ?_]
  intro p _
  simp

/-- Membership in a query result over a state satisfying the invariant:
exactly the entities holding every required component (nonempty required
list, all required types registered). -/
theorem queryEntities_mem_iff_has {s : EcsState α} (hinv : Inv s)
    {req : List String} (opt : List String) (hne : req ≠ [])
    (hreg : ∀ t ∈ req, (getComponentIndex s t).isSome = true) (e : Nat) :
    e ∈ (queryEntities s req opt).2.2.map Prod.fst ↔
      ∀ t ∈ req, hasComponent s e t = true := by
  have hmask : requiredMaskOf s req 0 = (none, (requiredMaskOf s req 0).2) :=
    Prod.ext (requiredMaskOf_ok hreg 0) rfl
  rw [queryEntities_mem hinv.bm_nodup opt hmask e]
  have htb := requiredMaskOf_testBit hreg 0
  constructor
  · rintro ⟨v, hv, hland⟩
    intro t ht
    obtain ⟨i, hi⟩ := Option.isSome_iff_exists.mp (hreg t ht)
    have hmaskbit : Nat.testBit (requiredMaskOf s req 0).2 i = true := by
      rw [htb i]
      simp only [Nat.zero_testBit, Bool.false_or, List.any_eq_true]
      exact ⟨t, ht, by simp [hi]⟩
    have hbit : Nat.testBit v i = true := (land_eq_right_iff _ _).mp hland i hmaskbit
    have := hinv.i1 t i e (by exact hi)
    rw [hv] at this
    simp only [Option.getD_some] at this
    rw [← this]
    exact hbit
  · intro hall
    obtain ⟨t₀, ht₀⟩ := List.exists_mem_of_ne_nil req hne
    obtain ⟨i₀, hi₀⟩ := Option.isSome_iff_exists.mp (hreg t₀ ht₀)
    have hbit₀ : Nat.testBit ((mget s.entityBitmasks e).getD 0) i₀ = true := by
      rw [hinv.i1 t₀ i₀ e hi₀]
      exact hall t₀ ht₀
    obtain ⟨v, hv⟩ : ∃ v, mget s.entityBitmasks e = some v := by
      cases hme : mget s.entityBitmasks e with
      | none =>
        rw [hme] at hbit₀
        simp [Nat.zero_testBit] at hbit₀
      | some v => exact ⟨v, rfl⟩
    refine ⟨v, hv, (land_eq_right_iff _ _).mpr ?_⟩
    intro j hj
    rw [htb j] at hj
    simp only [Nat.zero_testBit, Bool.false_or, List.any_eq_true] at hj
    obtain ⟨t, ht, hdec⟩ := hj
    have hgj : getComponentIndex s t = some j := of_decide_eq_true hdec
    have := hinv.i1 t j e hgj
    rw [hv] at this
    simp only [Option.getD_some] at this
    rw [this]
    exact hall t ht

/-- Result-id lists of queries are made of live entities. -/
theorem queryEntities_keys_live (s : EcsState α) (req opt : List String) (e : Nat)
    (h : e ∈ (queryEntities s req opt).2.2.map Prod.fst) :
    e ∈ s.entityBitmasks.map Prod.fst := by
  unfold queryEntities at h
  cases hmask : requiredMaskOf s req 0 with
  | mk err mask =>
    rw [hmask] at h
    cases err with
    | some err => simp at h
    | none =>
      simp only [List.map_map] at h
      obtain ⟨p, hp, rfl⟩ := List.mem_map.mp h
      exact List.mem_map.mpr ⟨p, (List.mem_filter.mp hp).1, rfl⟩

/-- Which operations never mention entity `e` as an explicit
add/remove target. -/
def opAvoids (e : Nat) : Op α → Bool
  | .addComponent e' _ => e' != e
  | .removeComponent e' _ => e' != e
  | _ => true

theorem addComponent_bms_other {s : EcsState α} {entity e : Nat}
    (hne : entity ≠ e) (c : Component α) :
    mget (addComponent s entity c).2.entityBitmasks e = mget s.entityBitmasks e := by
  cases h : getComponentIndex s c.token with
  | none => rw [addComponent_err h]
  | some i =>
    rw [addComponent_eq h]
    exact mget_mset_ne _ _ (Ne.symm hne)

theorem addAll_bms_other {entity e : Nat} (hne : entity ≠ e) :
    ∀ {comps : List (Component α)} {s : EcsState α},
      mget (addAll s entity comps).2.entityBitmasks e = mget s.entityBitmasks e ∧
      (addAll s entity comps).2.nextEntityId = s.nextEntityId := by
  intro comps
  induction comps with
  | nil => intro s; exact ⟨rfl, rfl⟩
  | cons c rest ih =>
    intro s
    simp only [addAll]
    cases hadd : addComponent s entity c with
    | mk err s₁ =>
      cases err with
      | some err =>
        have h1 : (addComponent s entity c).2 = s₁ := by rw [hadd]
        have h2 := addComponent_bms_other hne c (s := s)
        have h3 := (addComponent_fields s entity c).2.2
        rw [h1] at h2 h3
        exact ⟨h2, h3⟩
      | none =>
        have h1 : (addComponent s entity c).2 = s₁ := by rw [hadd]
        have h2 := addComponent_bms_other hne c (s := s)
        have h3 := (addComponent_fields s entity c).2.2
        rw [h1] at h2 h3
        obtain ⟨i1, i2⟩ := ih (s := s₁)
        exact ⟨i1.trans h2, i2.trans h3⟩

theorem dead_applyOp {s s' : EcsState α} {e : Nat} {op : Op α}
    (hdead : mget s.entityBitmasks e = none) (hlt : e < s.nextEntityId)
    (hav : opAvoids e op = true) (h : applyOp s op = (none, s')) :
    mget s'.entityBitmasks e = none ∧ e < s'.nextEntityId := by
  cases op with
  | createEntity comps =>
    have h2 : (createEntity s comps).2.1 = s' := congrArg Prod.snd h
    have hne : s.nextEntityId ≠ e := by omega
    unfold createEntity at h2
    dsimp only at h2
    obtain ⟨ha, hb⟩ := @addAll_bms_other α s.nextEntityId e hne comps
      { s with
        nextEntityId := s.nextEntityId + 1,
        entityBitmasks := mset s.entityBitmasks s.nextEntityId 0 }
    rw [h2] at ha hb
    constructor
    · rw [ha]
      dsimp only
      rw [mget_mset_ne _ _ (Ne.symm hne)]
      exact hdead
    · rw [hb]
      dsimp only
      omega
  | addComponent e' c =>
    simp only [applyOp] at h
    have hne : e' ≠ e := by
      simpa [opAvoids] using hav
    have h1 : (addComponent s e' c).2 = s' := congrArg Prod.snd h
    have h2 := addComponent_bms_other hne c (s := s)
    have h3 := (addComponent_fields s e' c).2.2
    rw [h1] at h2 h3
    rw [h2, h3]
    exact ⟨hdead, hlt⟩
  | removeComponent e' tag =>
    simp only [applyOp] at h
    have hne : e' ≠ e := by
      simpa [opAvoids] using hav
    cases hidx : getComponentIndex s tag with
    | none =>
      rw [removeComponent_err hidx] at h
      simp at h
    | some i =>
      cases hst : mget s.componentStores tag with
      | none =>
        rw [removeComponent_eq_none hidx hst] at h
        simp only [Prod.mk.injEq, true_and] at h
        subst h
        refine ⟨?_, hlt⟩
        dsimp only
        rw [mget_mset_ne _ _ (Ne.symm hne)]
        exact hdead
      | some st =>
        rw [removeComponent_eq_some hidx hst] at h
        simp only [Prod.mk.injEq, true_and] at h
        subst h
        refine ⟨?_, hlt⟩
        dsimp only
        rw [mget_mset_ne _ _ (Ne.symm hne)]
        exact hdead
  | deleteEntity e' =>
    simp only [applyOp, Prod.mk.injEq, true_and] at h
    subst h
    unfold deleteEntity
    refine ⟨?_, hlt⟩
    dsimp only
    by_cases hee : e = e'
    · subst hee
      exact mget_mdel_self _ _
    · rw [mget_mdel_ne _ hee]
      exact hdead

theorem dead_runOps {e : Nat} :
    ∀ {ops : List (Op α)} {s s' : EcsState α},
      mget s.entityBitmasks e = none → e < s.nextEntityId →
      (∀ op ∈ ops, opAvoids e op = true) → runOps s ops = some s' →
      mget s'.entityBitmasks e = none ∧ e < s'.nextEntityId := by
  intro ops
  induction ops with
  | nil =>
    intro s s' hdead hlt _ h
    simp only [runOps, Option.some.injEq] at h
    exact h ▸ ⟨hdead, hlt⟩
  | cons op rest ih =>
    intro s s' hdead hlt hav h
    simp only [runOps] at h
    cases hop : applyOp s op with
    | mk err s₁ =>
      rw [hop] at h
      cases err with
      | some err => simp at h
      | none =>
        obtain ⟨hd₁, hl₁⟩ :=
          dead_applyOp hdead hlt (hav op (List.mem_cons_self op rest)) hop
        exact ih hd₁ hl₁ (fun op' hop' => hav op' (List.mem_cons_of_mem op hop')) h

theorem registerComponentType_idem (s : EcsState α) (t : String) :
    registerComponentType (registerComponentType s t) t = registerComponentType s t := by
  by_cases h : mhas s.componentIndices t = true
  · have h1 : registerComponentType s t = s := by
      unfold registerComponentType
      rw [if_pos h]
    rw [h1]
    exact h1
  · have h1 : registerComponentType s t =
        { s with
          componentIndices := mset s.componentIndices t s.nextComponentIndex
          allowedComponents := mset s.allowedComponents t t
          nextComponentIndex := s.nextComponentIndex + 1 } := by
      unfold registerComponentType
      rw [if_neg h]
    rw [h1]
    unfold registerComponentType
    rw [if_pos ?_]
    unfold mhas
    dsimp only
    rw [mget_mset_self]
    rfl

theorem mem_query_keys_of_live {s : EcsState α} {e v : Nat}
    (h : mget s.entityBitmasks e = some v) :
    e ∈ (queryEntities s ([] : List String) ([] : List String)).2.2.map Prod.fst := by
  obtain ⟨-, hres⟩ := queryEntities_nil_required s []
  rw [hres, List.map_map]
  have hcomp : (Prod.fst ∘ fun p : Nat × Nat => (p.1, buildRecord s p.1 [] []))
      = Prod.fst := rfl
  rw [hcomp]
  exact mem_keys_of_mget_eq_some h

/-! ## Concrete example states (used to instantiate the claim theorems) -/

/-- A small engine with two registered component types. -/
def exEcs : EcsState Nat := createECS ["Position", "Health"]

/-- `exEcs` after creating entity `0` holding a `Position` component. -/
def exS1 : EcsState Nat := (createEntity exEcs [⟨"Position", 7⟩]).2.1

/-- `exS1` after deleting entity `0` and then creating a fresh entity. -/
def exS2 : EcsState Nat := (applyOp (deleteEntity exS1 0) (.createEntity [])).2

/-- The orphaned state behind claim C3's counterexample: a component is
added to the never-created id `0`, then `createEntity` allocates id `0`
and unconditionally resets its bitmask to `0n`, while the `Position`
store still holds the entry. -/
def c3Bad : EcsState Nat :=
  (applyOp (applyOp (createECS ["Position"]) (.addComponent 0 ⟨"Position", 7⟩)).2
    (.createEntity [])).2

/-! ## The claims -/

/-- C1, counterexample: the claim says `queryEntities` with an empty
required list returns an empty result in every state; in `exS1` (one live
entity) the empty required mask `0n` matches every live entity, so the
result is `[(0, {})]`, not `[]`. -/
theorem c1_counterexample :
    (queryEntities exS1 ([] : List String) ([] : List String)).2.2 ≠ [] := by
  have hres : (queryEntities exS1 ([] : List String) ([] : List String)).2.2
      = [(0, ([] : Record Nat))] := rfl
  rw [hres]
  simp

/-- C1, amended: for every engine state, `queryEntities` with an empty
required list (and no optional list) raises nothing and returns one
result per live entity — every live entity matches the empty mask — with
an empty record for each. -/
theorem c1_empty_required_returns_all (s : EcsState α) :
    (queryEntities s ([] : List String) ([] : List String)).1 = none ∧
    (queryEntities s ([] : List String) ([] : List String)).2.2
      = s.entityBitmasks.map fun p => (p.1, ([] : Record α)) := by
  obtain ⟨h1, hres⟩ := queryEntities_nil_required s []
  refine ⟨h1, ?_⟩
  rw [hres]
  rfl

/-- C2, counterexample: the claim says a deleted entity never reappears
in any subsequent query result, but the error-free continuation
`removeComponent(e, t)` — a silent no-op per the spec — computes
`(undefined || 0n) & ~(1n << i)` and unconditionally `Map.set`s the
result, planting a `0n` bitmask entry for the deleted id `0`, which then
reappears in the empty-required query result. -/
theorem c2_counterexample :
    (removeComponent (deleteEntity exS1 0) 0 "Position").1 = none ∧
    mget (removeComponent (deleteEntity exS1 0) 0 "Position").2.entityBitmasks 0
      = some 0 ∧
    0 ∈ (queryEntities (removeComponent (deleteEntity exS1 0) 0 "Position").2
        ([] : List String) ([] : List String)).2.2.map Prod.fst := by
  have hreg : getComponentIndex (deleteEntity exS1 0) "Position" = some 0 := rfl
  have hst : mget (deleteEntity exS1 0).componentStores "Position" = some [] := rfl
  have hdead : mget (deleteEntity exS1 0).entityBitmasks 0 = none := rfl
  rw [removeComponent_eq_some hreg hst]
  have hbm : mget (mset (deleteEntity exS1 0).entityBitmasks 0
      (Nat.ldiff ((mget (deleteEntity exS1 0).entityBitmasks 0).getD 0) (1 <<< 0))) 0
      = some 0 := by
    rw [mget_mset_self, hdead]
    simp [ldiff_zero_left]
  exact ⟨rfl, hbm, mem_query_keys_of_live hbm⟩

/-- C2, amended: right after `deleteEntity e`, `hasComponent e t` is
false for every type `t` and `e` has no bitmask entry; along any further
error-free operation sequence in which no `addComponent` or
`removeComponent` explicitly targets `e` itself, `e` stays absent from
the bitmask index and never appears in any query result, and
`createEntity` never hands out id `e` again (ids are never reused).
(Without the restriction, `removeComponent(e, t)` or `addComponent(e, c)`
on the deleted id re-inserts a bitmask entry for `e`.) -/
theorem c2_deletion_completeness (s : EcsState α) (e : Nat)
    (hlt : e < s.nextEntityId) (ops : List (Op α))
    (hav : ∀ op ∈ ops, opAvoids e op = true) (s' : EcsState α)
    (hrun : runOps (deleteEntity s e) ops = some s') :
    (∀ t, hasComponent (deleteEntity s e) e t = false) ∧
    mget (deleteEntity s e).entityBitmasks e = none ∧
    mget s'.entityBitmasks e = none ∧
    (∀ req opt, e ∉ (queryEntities s' req opt).2.2.map Prod.fst) ∧
    (∀ comps, (createEntity s' comps).2.2 ≠ e) := by
  have hdel_bm : mget (deleteEntity s e).entityBitmasks e = none := by
    unfold deleteEntity
    exact mget_mdel_self _ _
  have hdel_lt : e < (deleteEntity s e).nextEntityId := hlt
  obtain ⟨hd', hl'⟩ := dead_runOps hdel_bm hdel_lt hav hrun
  refine ⟨?_, hdel_bm, hd', ?_, ?_⟩
  · intro t
    unfold deleteEntity hasComponent
    dsimp only
    rw [mget_map_mdel]
    cases hs0 : mget s.componentStores t with
    | none => rfl
    | some st => simp [mhas, mget_mdel_self]
  · intro req opt hmem
    have hkeys := queryEntities_keys_live s' req opt e hmem
    exact ((mget_eq_none_iff _ _).mp hd') hkeys
  · intro comps
    have : (createEntity s' comps).2.2 = s'.nextEntityId := rfl
    omega

/-- C2, witness: the theorem applied to `exS1`, deleting entity `0` and
then creating a fresh entity. -/
theorem c2_witness :
    ((0 : Nat) < exS1.nextEntityId ∧
      (∀ op ∈ [Op.createEntity ([] : List (Component Nat))], opAvoids 0 op = true) ∧
      runOps (deleteEntity exS1 0) [Op.createEntity []] = some exS2) ∧
    ((∀ t, hasComponent (deleteEntity exS1 0) 0 t = false) ∧
      mget (deleteEntity exS1 0).entityBitmasks 0 = none ∧
      mget exS2.entityBitmasks 0 = none ∧
      (∀ req opt, 0 ∉ (queryEntities exS2 req opt).2.2.map Prod.fst) ∧
      (∀ comps, (createEntity exS2 comps).2.2 ≠ 0)) :=
  ⟨⟨by decide, by decide, rfl⟩,
    c2_deletion_completeness exS1 0 (by decide) [Op.createEntity []] (by decide) exS2 rfl⟩

/-- C3, counterexample: the claim quantifies over every error-free
sequence of public operations, but `addComponent(0n, position)` on the
never-created id `0` followed by `createEntity()` (which allocates id `0`
and unconditionally resets its bitmask to `0n`) completes without error
and leaves the `Position` store holding entity `0` while bit `0` of its
bitmask is clear. -/
theorem c3_counterexample :
    runOps (createECS ["Position"])
        [Op.addComponent 0 ⟨"Position", (7 : Nat)⟩, Op.createEntity []] = some c3Bad ∧
    mget c3Bad.componentIndices "Position" = some 0 ∧
    hasComponent c3Bad 0 "Position" = true ∧
    Nat.testBit ((mget c3Bad.entityBitmasks 0).getD 0) 0 = false :=
  ⟨rfl, rfl, rfl, rfl⟩

/-- C3, amended: for every error-free sequence of public operations in
which `addComponent` only targets already-allocated entities, and for
every entity `e` and registered type `t` with index `i`, bit `i` of `e`'s
bitmask is set iff the store of `t` contains an entry for `e`. -/
theorem c3_index_store_consistency (tags : List String) (ops : List (Op α))
    (s : EcsState α) (hrun : runOpsAlloc (createECS tags) ops = some s)
    (t : String) (i e : Nat) (ht : mget s.componentIndices t = some i) :
    Nat.testBit ((mget s.entityBitmasks e).getD 0) i = hasComponent s e t :=
  (inv_reachable hrun).i1 t i e ht

/-- C3, witness: the amended invariant evaluated on `exS1`. -/
theorem c3_witness :
    (runOpsAlloc (createECS ["Position", "Health"])
        [Op.createEntity [⟨"Position", (7 : Nat)⟩]] = some exS1 ∧
      mget exS1.componentIndices "Position" = some 0) ∧
    Nat.testBit ((mget exS1.entityBitmasks 0).getD 0) 0 = hasComponent exS1 0 "Position" :=
  ⟨⟨rfl, rfl⟩,
    c3_index_store_consistency ["Position", "Health"]
      [Op.createEntity [⟨"Position", 7⟩]] exS1 rfl "Position" 0 0 rfl⟩

/-- C4: on any reachable state, for a nonempty list of registered
required types, `queryEntities` raises nothing and returns exactly
(without duplicates) the entities that hold every required component,
regardless of extra components. -/
theorem c4_query_superset (tags : List String) (ops : List (Op α)) (s : EcsState α)
    (hrun : runOpsAlloc (createECS tags) ops = some s)
    (req : List String) (hne : req ≠ [])
    (hreg : ∀ t ∈ req, (getComponentIndex s t).isSome = true) (e : Nat) :
    (queryEntities s req []).1 = none ∧
    ((queryEntities s req []).2.2.map Prod.fst).Nodup ∧
    (e ∈ (queryEntities s req []).2.2.map Prod.fst ↔
      ∀ t ∈ req, hasComponent s e t = true) := by
  have hinv := inv_reachable hrun
  have hmask : requiredMaskOf s req 0 = (none, (requiredMaskOf s req 0).2) :=
    Prod.ext (requiredMaskOf_ok hreg 0) rfl
  obtain ⟨h1, -, hres⟩ := queryEntities_fst_eq s [] hmask
  refine ⟨h1, ?_, queryEntities_mem_iff_has hinv [] hne hreg e⟩
  rw [hres, List.map_map]
  have hcomp : (Prod.fst ∘ fun p : Nat × Nat => (p.1, buildRecord s p.1 req []))
      = Prod.fst := rfl
  rw [hcomp]
  exact ((List.filter_sublist _).map Prod.fst).nodup hinv.bm_nodup

/-- C4, witness: querying `exS1` for `Position`. -/
theorem c4_witness :
    (runOpsAlloc (createECS ["Position", "Health"])
        [Op.createEntity [⟨"Position", (7 : Nat)⟩]] = some exS1 ∧
      (["Position"] : List String) ≠ [] ∧
      (∀ t ∈ (["Position"] : List String), (getComponentIndex exS1 t).isSome = true)) ∧
    ((queryEntities exS1 ["Position"] []).1 = none ∧
      ((queryEntities exS1 ["Position"] []).2.2.map Prod.fst).Nodup ∧
      (0 ∈ (queryEntities exS1 ["Position"] []).2.2.map Prod.fst ↔
        ∀ t ∈ (["Position"] : List String), hasComponent exS1 0 t = true)) :=
  ⟨⟨rfl, by decide, by decide⟩,
    c4_query_superset ["Position", "Health"] [Op.createEntity [⟨"Position", 7⟩]] exS1
      rfl ["Position"] (by decide) (by decide) 0⟩

/-- C5: whenever `addComponent`, `removeComponent` or `queryEntities`
raises `UnknownComponentType`, index resolution failed before any write,
so the returned state is exactly the input state (and the query result is
empty). -/
theorem c5_fail_fast (s : EcsState α) (e : Nat) (c : Component α) (tag : String)
    (req opt : List String) :
    ((addComponent s e c).1.isSome = true → (addComponent s e c).2 = s) ∧
    ((removeComponent s e tag).1.isSome = true → (removeComponent s e tag).2 = s) ∧
    ((queryEntities s req opt).1.isSome = true →
      (queryEntities s req opt).2.1 = s ∧ (queryEntities s req opt).2.2 = []) := by
  refine ⟨?_, ?_, ?_⟩
  · intro h
    cases hidx : getComponentIndex s c.token with
    | none => rw [addComponent_err hidx]
    | some i =>
      rw [addComponent_eq hidx] at h
      simp at h
  · intro h
    cases hidx : getComponentIndex s tag with
    | none => rw [removeComponent_err hidx]
    | some i =>
      cases hst : mget s.componentStores tag with
      | none =>
        rw [removeComponent_eq_none hidx hst] at h
        simp at h
      | some st =>
        rw [removeComponent_eq_some hidx hst] at h
        simp at h
  · intro h
    unfold queryEntities at h ⊢
    cases hmask : requiredMaskOf s req 0 with
    | mk err mask =>
      cases err with
      | none =>
        rw [hmask] at h
        exact Bool.noConfusion h
      | some err => exact ⟨rfl, rfl⟩

/-- C5, witness: the theorem applied to the unregistered tag `"Nope"` on
`exEcs`. -/
theorem c5_witness :
    ((addComponent exEcs 0 ⟨"Nope", (0 : Nat)⟩).1.isSome = true ∧
      (addComponent exEcs 0 ⟨"Nope", (0 : Nat)⟩).2 = exEcs) ∧
    ((removeComponent exEcs 0 "Nope").1.isSome = true ∧
      (removeComponent exEcs 0 "Nope").2 = exEcs) ∧
    ((queryEntities exEcs ["Nope"] []).1.isSome = true ∧
      (queryEntities exEcs ["Nope"] []).2.1 = exEcs ∧
      (queryEntities exEcs ["Nope"] []).2.2 = []) :=
  ⟨⟨rfl, (c5_fail_fast exEcs 0 ⟨"Nope", 0⟩ "Nope" ["Nope"] []).1 rfl⟩,
    ⟨rfl, (c5_fail_fast exEcs 0 ⟨"Nope", 0⟩ "Nope" ["Nope"] []).2.1 rfl⟩,
    ⟨rfl, (c5_fail_fast exEcs 0 ⟨"Nope", 0⟩ "Nope" ["Nope"] []).2.2 rfl⟩⟩

/-- C6: registration is idempotent, and the index map built by
`ECS.create` lists the distinct tags in first-registration order with
consecutive indices starting at `0` — in particular the assignment is
injective and re-registering changes nothing. -/
theorem c6_registration (s : EcsState α) (t : String) (tags : List String)
    (t₁ t₂ : String) (i : Nat) :
    registerComponentType (registerComponentType s t) t = registerComponentType s t ∧
    (createECS tags : EcsState α).componentIndices
        = indexedFrom 0 (dedupKeep [] tags) ∧
    (createECS tags : EcsState α).nextComponentIndex = (dedupKeep [] tags).length ∧
    (mget (createECS tags : EcsState α).componentIndices t₁ = some i →
      mget (createECS tags : EcsState α).componentIndices t₂ = some i → t₁ = t₂) := by
  obtain ⟨h1, h2⟩ := createECS_indices (α := α) tags
  refine ⟨registerComponentType_idem s t, h1, h2, ?_⟩
  intro ha hb
  rw [h1] at ha hb
  exact indexedFrom_inj ha hb

/-- C6, witness: duplicate registration of `"Position"` keeps the indices
`0, 1` in first-seen order. -/
theorem c6_witness :
    (mget (createECS ["Position", "Health", "Position"] : EcsState Nat).componentIndices
        "Health" = some 1 ∧
      mget (createECS ["Position", "Health", "Position"] : EcsState Nat).componentIndices
        "Health" = some 1) ∧
    (registerComponentType (registerComponentType exEcs "Position") "Position"
        = registerComponentType exEcs "Position" ∧
      (createECS ["Position", "Health", "Position"] : EcsState Nat).componentIndices
          = indexedFrom 0 (dedupKeep [] ["Position", "Health", "Position"]) ∧
      (createECS ["Position", "Health", "Position"] : EcsState Nat).nextComponentIndex
          = (dedupKeep [] ["Position", "Health", "Position"]).length ∧
      ("Health" : String) = "Health") :=
  ⟨⟨rfl, rfl⟩,
    (c6_registration exEcs "Position" ["Position", "Health", "Position"]
        "Health" "Health" 1).1,
    (c6_registration exEcs "Position" ["Position", "Health", "Position"]
        "Health" "Health" 1).2.1,
    (c6_registration exEcs "Position" ["Position", "Health", "Position"]
        "Health" "Health" 1).2.2.1,
    (c6_registration exEcs "Position" ["Position", "Health", "Position"]
        "Health" "Health" 1).2.2.2 rfl rfl⟩

/-- C7: adding two values of the same registered type to an entity
raises nothing, leaves the second value in the store (overwrite), and
leaves the bitmask table exactly as after the first add (the type's bit
is set exactly once). -/
theorem c7_overwrite (s : EcsState α) (e : Nat) (tag : String) (v₁ v₂ : α) (i : Nat)
    (hreg : getComponentIndex s tag = some i) :
    (addComponent s e ⟨tag, v₁⟩).1 = none ∧
    (addComponent (addComponent s e ⟨tag, v₁⟩).2 e ⟨tag, v₂⟩).1 = none ∧
    getComponent (addComponent (addComponent s e ⟨tag, v₁⟩).2 e ⟨tag, v₂⟩).2 e tag
      = some ⟨tag, v₂⟩ ∧
    (addComponent (addComponent s e ⟨tag, v₁⟩).2 e ⟨tag, v₂⟩).2.entityBitmasks
      = (addComponent s e ⟨tag, v₁⟩).2.entityBitmasks := by
  have hfst : (addComponent s e ⟨tag, v₁⟩).1 = none := by
    rw [addComponent_eq hreg]
  have hidx2 : getComponentIndex (addComponent s e ⟨tag, v₁⟩).2 tag = some i := by
    unfold getComponentIndex at hreg ⊢
    rw [(addComponent_fields s e ⟨tag, v₁⟩).1]
    exact hreg
  have hfst2 : (addComponent (addComponent s e ⟨tag, v₁⟩).2 e ⟨tag, v₂⟩).1 = none := by
    rw [addComponent_eq hidx2]
  refine ⟨hfst, hfst2, ?_, ?_⟩
  · rw [addComponent_eq hidx2, getComponent_eq_bind]
    dsimp only
    rw [mget_mset_self]
    simp [mget_mset_self]
  · rw [addComponent_eq hidx2, addComponent_eq hreg]
    dsimp only
    rw [mget_mset_self]
    simp only [Option.getD_some]
    rw [lor_lor_self, mset_mset_same]

/-- C7, witness: overwriting a `Position` value on entity `0` of `exEcs`. -/
theorem c7_witness :
    getComponentIndex exEcs "Position" = some 0 ∧
    ((addComponent exEcs 0 ⟨"Position", (1 : Nat)⟩).1 = none ∧
      (addComponent (addComponent exEcs 0 ⟨"Position", 1⟩).2 0 ⟨"Position", 2⟩).1 = none ∧
      getComponent (addComponent (addComponent exEcs 0 ⟨"Position", 1⟩).2 0
          ⟨"Position", 2⟩).2 0 "Position" = some ⟨"Position", 2⟩ ∧
      (addComponent (addComponent exEcs 0 ⟨"Position", 1⟩).2 0
          ⟨"Position", 2⟩).2.entityBitmasks
        = (addComponent exEcs 0 ⟨"Position", 1⟩).2.entityBitmasks) :=
  ⟨rfl, c7_overwrite exEcs 0 "Position" 1 2 0 rfl⟩

/-- C8: on any reachable state with registered types `A` and `B`,
`queryEntities([A],[B])` raises nothing, returns exactly the entities
holding `A` (presence of `B` never gates inclusion), and in each returned
record the `B` field holds `getComponent`'s result for `B` — some value
iff the entity holds `B`, absent-marked (`none`) otherwise. -/
theorem c8_optional_fields (tags : List String) (ops : List (Op α)) (s : EcsState α)
    (hrun : runOpsAlloc (createECS tags) ops = some s) (A B : String)
    (hA : (getComponentIndex s A).isSome = true)
    (hB : (getComponentIndex s B).isSome = true) (e : Nat) :
    (queryEntities s [A] [B]).1 = none ∧
    (e ∈ (queryEntities s [A] [B]).2.2.map Prod.fst ↔ hasComponent s e A = true) ∧
    (∀ p ∈ (queryEntities s [A] [B]).2.2,
      mget p.2 (pascalCaseToCamelCase B) = some (getComponent s p.1 B)) ∧
    (getComponent s e B).isSome = hasComponent s e B := by
  have hinv := inv_reachable hrun
  have hregA : ∀ t ∈ [A], (getComponentIndex s t).isSome = true := by
    intro t ht
    rw [List.mem_singleton] at ht
    subst ht
    exact hA
  have hmask : requiredMaskOf s [A] 0 = (none, (requiredMaskOf s [A] 0).2) :=
    Prod.ext (requiredMaskOf_ok hregA 0) rfl
  refine ⟨(queryEntities_fst_eq s [B] hmask).1, ?_, ?_,
    (hasComponent_eq_isSome s e B).symm⟩
  · rw [queryEntities_mem_iff_has hinv [B] (by simp) hregA e]
    simp
  · intro p hp
    rw [queryEntities_record [B] hmask hp]
    have hbr : buildRecord s p.1 [A] [B]
        = mset (mset [] (pascalCaseToCamelCase A) (getComponent s p.1 A))
            (pascalCaseToCamelCase B) (getComponent s p.1 B) := rfl
    rw [hbr, mget_mset_self]

/-- C8, witness: `query([Position],[Health])` on `exS1` (entity `0` has
`Position` but no `Health`). -/
theorem c8_witness :
    (runOpsAlloc (createECS ["Position", "Health"])
        [Op.createEntity [⟨"Position", (7 : Nat)⟩]] = some exS1 ∧
      (getComponentIndex exS1 "Position").isSome = true ∧
      (getComponentIndex exS1 "Health").isSome = true) ∧
    ((queryEntities exS1 ["Position"] ["Health"]).1 = none ∧
      (0 ∈ (queryEntities exS1 ["Position"] ["Health"]).2.2.map Prod.fst ↔
        hasComponent exS1 0 "Position" = true) ∧
      (∀ p ∈ (queryEntities exS1 ["Position"] ["Health"]).2.2,
        mget p.2 (pascalCaseToCamelCase "Health")
          = some (getComponent exS1 p.1 "Health")) ∧
      (getComponent exS1 0 "Health").isSome = hasComponent exS1 0 "Health") :=
  ⟨⟨rfl, rfl, rfl⟩,
    c8_optional_fields ["Position", "Health"] [Op.createEntity [⟨"Position", 7⟩]]
      exS1 rfl "Position" "Health" rfl rfl 0⟩

/-- C9: `removeComponent` on an id with no bitmask entry (never created
or deleted) and a registered type is not a state no-op: it raises
nothing and inserts a bitmask entry of `0` for that id, which then shows
up as a live entity in bitmask scans (here: the empty-required query). -/
theorem c9_remove_resurrects (s : EcsState α) (e : Nat) (tag : String) (i : Nat)
    (hreg : getComponentIndex s tag = some i)
    (hdead : mget s.entityBitmasks e = none) :
    (removeComponent s e tag).1 = none ∧
    mget (removeComponent s e tag).2.entityBitmasks e = some 0 ∧
    e ∈ (queryEntities (removeComponent s e tag).2 ([] : List String)
        ([] : List String)).2.2.map Prod.fst := by
  cases hst : mget s.componentStores tag with
  | none =>
    rw [removeComponent_eq_none hreg hst]
    have hbm : mget (mset s.entityBitmasks e
        (Nat.ldiff ((mget s.entityBitmasks e).getD 0) (1 <<< i))) e = some 0 := by
      rw [mget_mset_self, hdead]
      simp [ldiff_zero_left]
    exact ⟨rfl, hbm, mem_query_keys_of_live hbm⟩
  | some st =>
    rw [removeComponent_eq_some hreg hst]
    have hbm : mget (mset s.entityBitmasks e
        (Nat.ldiff ((mget s.entityBitmasks e).getD 0) (1 <<< i))) e = some 0 := by
      rw [mget_mset_self, hdead]
      simp [ldiff_zero_left]
    exact ⟨rfl, hbm, mem_query_keys_of_live hbm⟩

/-- C9, witness: removing `Position` from the never-created id `5` of
`exS1` plants a zero bitmask entry for `5`. -/
theorem c9_witness :
    (getComponentIndex exS1 "Position" = some 0 ∧
      mget exS1.entityBitmasks 5 = none) ∧
    ((removeComponent exS1 5 "Position").1 = none ∧
      mget (removeComponent exS1 5 "Position").2.entityBitmasks 5 = some 0 ∧
      5 ∈ (queryEntities (removeComponent exS1 5 "Position").2 ([] : List String)
          ([] : List String)).2.2.map Prod.fst) :=
  ⟨⟨rfl, rfl⟩, c9_remove_resurrects exS1 5 "Position" 0 rfl rfl⟩

/-- C10: on any reachable state, `getComponent` and `hasComponent` are
total — they never raise `UnknownComponentType` — and on an unregistered
type they return `none` and `false` for every entity id. -/
theorem c10_reads_total (tags : List String) (ops : List (Op α)) (s : EcsState α)
    (hrun : runOpsAlloc (createECS tags) ops = some s) (e : Nat) (t : String)
    (ht : getComponentIndex s t = none) :
    getComponent s e t = none ∧ hasComponent s e t = false := by
  have hinv := inv_reachable hrun
  have hstore : mget s.componentStores t = none := by
    cases hs0 : mget s.componentStores t with
    | none => rfl
    | some st =>
      have hreg := hinv.stores_reg t (by simp [hs0])
      unfold getComponentIndex at ht
      rw [ht] at hreg
      exact Bool.noConfusion hreg
  constructor
  · rw [getComponent_eq_bind, hstore]
    rfl
  · unfold hasComponent
    rw [hstore]

/-- C10, witness: the unregistered tag `"Nope"` on `exS1`. -/
theorem c10_witness :
    (runOpsAlloc (createECS ["Position", "Health"])
        [Op.createEntity [⟨"Position", (7 : Nat)⟩]] = some exS1 ∧
      getComponentIndex exS1 "Nope" = none) ∧
    (getComponent exS1 0 "Nope" = none ∧ hasComponent exS1 0 "Nope" = false) :=
  ⟨⟨rfl, rfl⟩,
    c10_reads_total ["Position", "Health"] [Op.createEntity [⟨"Position", 7⟩]]
      exS1 rfl 0 "Nope" rfl⟩

end Ecsdee
